import Mathlib

/-!
Shallow embedding of the two algorithmic cores of the "15 Day Python
Challenge" repository, together with proofs of the specification's
claims about them:

* the debt-settlement optimizer `optimize_payments` of
  `Python Challenge Day 2/expense_splitter.py`, and
* the snake game engine of `Python Challenge 15/snake.py`
  (class `SnakeGame` plus the driver loop in `main`).

Currency amounts are modelled as rationals (the Python source uses
floats; the spec's tolerance is exact at 1/100, so ℚ is the faithful
idealization).  Grid positions are pairs of integers, as in the source.
-/

namespace ExpenseSplitter

/-- The tolerance used throughout `optimize_payments`: the source
compares balances against the literals `-0.01` and `0.01`. -/
def eps : ℚ := 1 / 100

/-- One entry of the `transactions` list built by `optimize_payments`:
the Python dict has keys `from`, `to` and `amount` (`from` is a Lean
keyword, hence the `t_` prefixes). -/
structure Transaction where
  t_from : String
  t_to : String
  amount : ℚ
deriving DecidableEq, Repr

/-- Input of the optimizer: the `results` dict of the source, viewed as
its association list of participant name and net balance
(`data['balance']`); dict iteration order is the list order. -/
abbrev Balances := List (String × ℚ)

/-- The debtor list built by the first loop of `optimize_payments`:
entries with `balance < -0.01`, carrying `-balance` as the owed amount,
in input order. -/
def debtors_of (bs : Balances) : List (String × ℚ) :=
  (bs.filter (fun p => p.2 < -eps)).map (fun p => (p.1, -p.2))

/-- The creditor list built by the first loop of `optimize_payments`:
entries with `balance > 0.01`, carrying `balance`, in input order. -/
def creditors_of (bs : Balances) : List (String × ℚ) :=
  (bs.filter (fun p => eps < p.2)).map (fun p => (p.1, p.2))

/-- Stable insertion step for sorting by amount in descending order:
the new element is placed before the first strictly smaller-or-equal
entry it can head, i.e. after every earlier entry of at least its
amount.  A stable sort is determined uniquely by its comparison key, so
this models `list.sort(key=lambda x: x['amount'], reverse=True)`
(Python's sort is stable). -/
def insert_by_amount (x : String × ℚ) : List (String × ℚ) → List (String × ℚ)
  | [] => [x]
  | y :: ys => if y.2 ≤ x.2 then x :: y :: ys else y :: insert_by_amount x ys

/-- Stable descending sort by amount, modelling
`sort(key=lambda x: x['amount'], reverse=True)`. -/
def sort_by_amount : List (String × ℚ) → List (String × ℚ)
  | [] => []
  | x :: xs => insert_by_amount x (sort_by_amount xs)

/-- The matching loop of `optimize_payments` (lines 160–190): the two
index/mutation cursors of the Python `while` loop are modelled by
consuming the heads of the two lists; partially paid entries are put
back with reduced amount.  `fuel` bounds the number of iterations; the
loop consumes at least one list element per iteration, so
`ds.length + cs.length` fuel is always enough. -/
def settleFuel : ℕ → List (String × ℚ) → List (String × ℚ) → List Transaction
  | 0, _, _ => []
  | _ + 1, [], _ => []
  | _ + 1, _ :: _, [] => []
  | fuel + 1, (dn, d) :: ds, (cn, c) :: cs =>
    if d < c then
      ⟨dn, cn, d⟩ :: settleFuel fuel ds ((cn, c - d) :: cs)
    else if c < d then
      ⟨dn, cn, c⟩ :: settleFuel fuel ((dn, d - c) :: ds) cs
    else
      ⟨dn, cn, d⟩ :: settleFuel fuel ds cs

/-- The matching loop of `optimize_payments` with its always-sufficient
fuel. -/
def settle (ds cs : List (String × ℚ)) : List Transaction :=
  settleFuel (ds.length + cs.length) ds cs

/-- Model of `optimize_payments(results)` in `expense_splitter.py` (lines
142–192): partition into debtors and creditors, sort both descending by
amount, then greedily match. -/
def optimize_payments (bs : Balances) : List Transaction :=
  settle (sort_by_amount (debtors_of bs)) (sort_by_amount (creditors_of bs))

/-- Total amount a participant sends over a transaction list. -/
def paid_out (n : String) : List Transaction → ℚ
  | [] => 0
  | t :: ts => (if t.t_from = n then t.amount else 0) + paid_out n ts

/-- Total amount a participant receives over a transaction list. -/
def received (n : String) : List Transaction → ℚ
  | [] => 0
  | t :: ts => (if t.t_to = n then t.amount else 0) + received n ts

/-- Result of executing a transaction list against a participant's net
balance, under the balance convention of the source (`paid - share`:
negative means the participant still owes money).  Sending money raises
the sender's net position, receiving money lowers the receiver's. -/
def apply_transfers (b : ℚ) (n : String) (ts : List Transaction) : ℚ :=
  b + paid_out n ts - received n ts

/-- Execution of a transaction list read with the opposite sign
convention, exactly as claim C1 words it: each amount is subtracted
from the sender's balance and added to the receiver's. -/
def apply_transfers_as_stated (b : ℚ) (n : String) (ts : List Transaction) : ℚ :=
  b - paid_out n ts + received n ts

lemma eps_pos : 0 < eps := by norm_num [eps]

lemma insert_by_amount_perm (x : String × ℚ) (l : List (String × ℚ)) :
    List.Perm (insert_by_amount x l) (x :: l) := by
  induction l with
  | nil => simp [insert_by_amount]
  | cons y ys ih =>
    by_cases h : y.2 ≤ x.2
    · simp [insert_by_amount, h]
    · simpa [insert_by_amount, h] using
        ((ih.cons y).trans (List.Perm.swap x y ys))

lemma sort_by_amount_perm (l : List (String × ℚ)) :
    List.Perm (sort_by_amount l) l := by
  induction l with
  | nil => simp [sort_by_amount]
  | cons x xs ih =>
    exact (insert_by_amount_perm x (sort_by_amount xs)).trans (ih.cons x)

lemma settleFuel_from_mem :
    ∀ (fuel : ℕ) (ds cs : List (String × ℚ)),
      ∀ t ∈ settleFuel fuel ds cs, t.t_from ∈ ds.map Prod.fst
  | 0, _, _ => by simp [settleFuel]
  | _ + 1, [], _ => by simp [settleFuel]
  | _ + 1, _ :: _, [] => by simp [settleFuel]
  | fuel + 1, (dn, d) :: ds, (cn, c) :: cs => by
    intro t ht
    by_cases hdc : d < c
    · simp only [settleFuel, if_pos hdc, List.mem_cons] at ht
      rcases ht with rfl | ht
      · simp
      · exact List.mem_cons_of_mem _
          (settleFuel_from_mem fuel ds ((cn, c - d) :: cs) t ht)
    · by_cases hcd : c < d
      · simp only [settleFuel, if_neg hdc, if_pos hcd, List.mem_cons] at ht
        rcases ht with rfl | ht
        · simp
        · have := settleFuel_from_mem fuel ((dn, d - c) :: ds) cs t ht
          simpa using this
      · simp only [settleFuel, if_neg hdc, if_neg hcd, List.mem_cons] at ht
        rcases ht with rfl | ht
        · simp
        · exact List.mem_cons_of_mem _ (settleFuel_from_mem fuel ds cs t ht)

lemma settleFuel_to_mem :
    ∀ (fuel : ℕ) (ds cs : List (String × ℚ)),
      ∀ t ∈ settleFuel fuel ds cs, t.t_to ∈ cs.map Prod.fst
  | 0, _, _ => by simp [settleFuel]
  | _ + 1, [], _ => by simp [settleFuel]
  | _ + 1, _ :: _, [] => by simp [settleFuel]
  | fuel + 1, (dn, d) :: ds, (cn, c) :: cs => by
    intro t ht
    by_cases hdc : d < c
    · simp only [settleFuel, if_pos hdc, List.mem_cons] at ht
      rcases ht with rfl | ht
      · simp
      · have := settleFuel_to_mem fuel ds ((cn, c - d) :: cs) t ht
        simpa using this
    · by_cases hcd : c < d
      · simp only [settleFuel, if_neg hdc, if_pos hcd, List.mem_cons] at ht
        rcases ht with rfl | ht
        · simp
        · exact List.mem_cons_of_mem _
            (settleFuel_to_mem fuel ((dn, d - c) :: ds) cs t ht)
      · simp only [settleFuel, if_neg hdc, if_neg hcd, List.mem_cons] at ht
        rcases ht with rfl | ht
        · simp
        · exact List.mem_cons_of_mem _ (settleFuel_to_mem fuel ds cs t ht)

lemma paid_out_eq_zero {n : String} {ts : List Transaction}
    (h : ∀ t ∈ ts, t.t_from ≠ n) : paid_out n ts = 0 := by
  induction ts with
  | nil => rfl
  | cons t ts ih =>
    have h1 : t.t_from ≠ n := h t (by simp)
    have h2 : ∀ t' ∈ ts, t'.t_from ≠ n := fun t' ht' => h t' (by simp [ht'])
    simp [paid_out, h1, ih h2]

lemma received_eq_zero {n : String} {ts : List Transaction}
    (h : ∀ t ∈ ts, t.t_to ≠ n) : received n ts = 0 := by
  induction ts with
  | nil => rfl
  | cons t ts ih =>
    have h1 : t.t_to ≠ n := h t (by simp)
    have h2 : ∀ t' ∈ ts, t'.t_to ≠ n := fun t' ht' => h t' (by simp [ht'])
    simp [received, h1, ih h2]

lemma paid_out_settleFuel_zero {n : String} {fuel : ℕ}
    {ds cs : List (String × ℚ)} (h : n ∉ ds.map Prod.fst) :
    paid_out n (settleFuel fuel ds cs) = 0 :=
  paid_out_eq_zero (fun t ht hn =>
    h (hn ▸ settleFuel_from_mem fuel ds cs t ht))

lemma received_settleFuel_zero {n : String} {fuel : ℕ}
    {ds cs : List (String × ℚ)} (h : n ∉ cs.map Prod.fst) :
    received n (settleFuel fuel ds cs) = 0 :=
  received_eq_zero (fun t ht hn =>
    h (hn ▸ settleFuel_to_mem fuel ds cs t ht))

lemma keys_inj {bs : Balances} (hnd : (bs.map Prod.fst).Nodup)
    {n : String} {a b : ℚ} (ha : (n, a) ∈ bs) (hb : (n, b) ∈ bs) : a = b := by
  induction bs with
  | nil => simp at ha
  | cons p ps ih =>
    obtain ⟨m, v⟩ := p
    simp only [List.map_cons, List.nodup_cons] at hnd
    have hm : m ∉ ps.map Prod.fst := hnd.1
    rcases List.mem_cons.1 ha with ha1 | ha1
    · injection ha1 with hn1 hv1
      rcases List.mem_cons.1 hb with hb1 | hb1
      · injection hb1 with hn2 hv2
        rw [hv1, hv2]
      · have hmem : n ∈ ps.map Prod.fst := by
          simpa using List.mem_map_of_mem Prod.fst hb1
        exact absurd (hn1 ▸ hmem) hm
    · rcases List.mem_cons.1 hb with hb1 | hb1
      · injection hb1 with hn2 hv2
        have hmem : n ∈ ps.map Prod.fst := by
          simpa using List.mem_map_of_mem Prod.fst ha1
        exact absurd (hn2 ▸ hmem) hm
      · exact ih hnd.2 ha1 hb1

/-- Core invariant of the greedy matching loop.  If all pending amounts
are positive, all amounts except possibly the two current heads exceed
the tolerance, and the total pending debt and credit differ by at most
the tolerance, then every debtor pays out its amount up to `eps` (and
never more), and every creditor receives its amount up to `eps` (and
never more). -/
lemma settleFuel_bounds (fuel : ℕ) :
    ∀ (ds cs : List (String × ℚ)),
      ds.length + cs.length ≤ fuel →
      (∀ p ∈ ds, 0 < p.2) → (∀ p ∈ cs, 0 < p.2) →
      (∀ p ∈ ds.tail, eps < p.2) → (∀ p ∈ cs.tail, eps < p.2) →
      (ds.map Prod.snd).sum - (cs.map Prod.snd).sum ≤ eps →
      (cs.map Prod.snd).sum - (ds.map Prod.snd).sum ≤ eps →
      (ds.map Prod.fst).Nodup → (cs.map Prod.fst).Nodup →
      (∀ p ∈ ds, p.2 - eps ≤ paid_out p.1 (settleFuel fuel ds cs) ∧
                 paid_out p.1 (settleFuel fuel ds cs) ≤ p.2) ∧
      (∀ p ∈ cs, p.2 - eps ≤ received p.1 (settleFuel fuel ds cs) ∧
                 received p.1 (settleFuel fuel ds cs) ≤ p.2) := by
  induction fuel with
  | zero =>
    intro ds cs hlen _ _ _ _ _ _ _ _
    have hds : ds = [] := List.length_eq_zero.1 (by omega)
    have hcs : cs = [] := List.length_eq_zero.1 (by omega)
    subst hds; subst hcs
    exact ⟨by simp, by simp⟩
  | succ fuel ih =>
    intro ds cs hlen hdpos hcpos hdtail hctail hsum1 hsum2 hdnd hcnd
    cases ds with
    | nil =>
      refine ⟨by simp, ?_⟩
      intro p hp
      have hle : p.2 ≤ (cs.map Prod.snd).sum :=
        List.single_le_sum
          (by intro x hx
              obtain ⟨q, hq, rfl⟩ := List.mem_map.1 hx
              exact le_of_lt (hcpos q hq))
          p.2 (List.mem_map_of_mem Prod.snd hp)
      have hz : received p.1 (settleFuel (fuel + 1) [] cs) = 0 := rfl
      rw [hz]
      simp only [List.map_nil, List.sum_nil] at hsum2
      exact ⟨by linarith, le_of_lt (hcpos p hp)⟩
    | cons dp ds =>
      cases cs with
      | nil =>
        refine ⟨?_, by simp⟩
        intro p hp
        have hle : p.2 ≤ ((dp :: ds).map Prod.snd).sum :=
          List.single_le_sum
            (by intro x hx
                obtain ⟨q, hq, rfl⟩ := List.mem_map.1 hx
                exact le_of_lt (hdpos q hq))
            p.2 (List.mem_map_of_mem Prod.snd hp)
        have hz : paid_out p.1 (settleFuel (fuel + 1) (dp :: ds) []) = 0 := rfl
        rw [hz]
        simp only [List.map_nil, List.sum_nil] at hsum1
        exact ⟨by linarith, le_of_lt (hdpos p hp)⟩
      | cons cp cs =>
        obtain ⟨dn, d⟩ := dp
        obtain ⟨cn, c⟩ := cp
        simp only [List.map_cons, List.nodup_cons] at hdnd hcnd
        obtain ⟨hdn_nin, hdnd⟩ := hdnd
        obtain ⟨hcn_nin, hcnd⟩ := hcnd
        simp only [List.map_cons, List.sum_cons] at hsum1 hsum2
        simp only [List.tail_cons] at hdtail hctail
        simp only [List.length_cons] at hlen
        have hdp : 0 < d := hdpos (dn, d) (by simp)
        have hcp : 0 < c := hcpos (cn, c) (by simp)
        by_cases hdc : d < c
        · -- debtor pays its full remaining debt and is consumed
          have hstep : settleFuel (fuel + 1) ((dn, d) :: ds) ((cn, c) :: cs) =
              Transaction.mk dn cn d :: settleFuel fuel ds ((cn, c - d) :: cs) := by
            simp [settleFuel, hdc]
          obtain ⟨ih1, ih2⟩ := ih ds ((cn, c - d) :: cs)
            (by simp only [List.length_cons]; omega)
            (fun p hp => hdpos p (List.mem_cons_of_mem _ hp))
            (by intro p hp
                rcases List.mem_cons.1 hp with rfl | hp
                · simpa using sub_pos.2 hdc
                · exact hcpos p (List.mem_cons_of_mem _ hp))
            (fun p hp => hdtail p (List.mem_of_mem_tail hp))
            (by simpa using hctail)
            (by simp only [List.map_cons, List.sum_cons]; linarith)
            (by simp only [List.map_cons, List.sum_cons]; linarith)
            hdnd
            (by simpa using List.nodup_cons.2 ⟨hcn_nin, hcnd⟩)
          rw [hstep]
          constructor
          · intro p hp
            rcases List.mem_cons.1 hp with rfl | hp
            · have hval : paid_out (dn, d).1
                  (Transaction.mk dn cn d :: settleFuel fuel ds ((cn, c - d) :: cs)) = d := by
                simp [paid_out, paid_out_settleFuel_zero hdn_nin]
              rw [hval]
              exact ⟨by simpa using by linarith [eps_pos], by simp⟩
            · have hp1 : p.1 ∈ ds.map Prod.fst := List.mem_map_of_mem Prod.fst hp
              have hne : dn ≠ p.1 := fun h => hdn_nin (h ▸ hp1)
              have hval : paid_out p.1
                  (Transaction.mk dn cn d :: settleFuel fuel ds ((cn, c - d) :: cs)) =
                  paid_out p.1 (settleFuel fuel ds ((cn, c - d) :: cs)) := by
                simp [paid_out, hne]
              rw [hval]
              exact ih1 p hp
          · intro p hp
            rcases List.mem_cons.1 hp with rfl | hp
            · obtain ⟨hlow, hhigh⟩ := ih2 (cn, c - d) (by simp)
              have hlow2 : c - d - eps ≤ received cn (settleFuel fuel ds ((cn, c - d) :: cs)) := hlow
              have hhigh2 : received cn (settleFuel fuel ds ((cn, c - d) :: cs)) ≤ c - d := hhigh
              have hval : received (cn, c).1
                  (Transaction.mk dn cn d :: settleFuel fuel ds ((cn, c - d) :: cs)) =
                  d + received cn (settleFuel fuel ds ((cn, c - d) :: cs)) := by
                simp [received]
              rw [hval]
              exact ⟨by simpa using by linarith, by simpa using by linarith⟩
            · have hp1 : p.1 ∈ cs.map Prod.fst := List.mem_map_of_mem Prod.fst hp
              have hne : cn ≠ p.1 := fun h => hcn_nin (h ▸ hp1)
              have hval : received p.1
                  (Transaction.mk dn cn d :: settleFuel fuel ds ((cn, c - d) :: cs)) =
                  received p.1 (settleFuel fuel ds ((cn, c - d) :: cs)) := by
                simp [received, hne]
              rw [hval]
              exact ih2 p (List.mem_cons_of_mem _ hp)
        · by_cases hcd : c < d
          · -- creditor is fully served and consumed
            have hstep : settleFuel (fuel + 1) ((dn, d) :: ds) ((cn, c) :: cs) =
                Transaction.mk dn cn c :: settleFuel fuel ((dn, d - c) :: ds) cs := by
              simp [settleFuel, hdc, hcd]
            obtain ⟨ih1, ih2⟩ := ih ((dn, d - c) :: ds) cs
              (by simp only [List.length_cons]; omega)
              (by intro p hp
                  rcases List.mem_cons.1 hp with rfl | hp
                  · simpa using sub_pos.2 hcd
                  · exact hdpos p (List.mem_cons_of_mem _ hp))
              (fun p hp => hcpos p (List.mem_cons_of_mem _ hp))
              (by simpa using hdtail)
              (fun p hp => hctail p (List.mem_of_mem_tail hp))
              (by simp only [List.map_cons, List.sum_cons]; linarith)
              (by simp only [List.map_cons, List.sum_cons]; linarith)
              (by simpa using List.nodup_cons.2 ⟨hdn_nin, hdnd⟩)
              hcnd
            rw [hstep]
            constructor
            · intro p hp
              rcases List.mem_cons.1 hp with rfl | hp
              · obtain ⟨hlow, hhigh⟩ := ih1 (dn, d - c) (by simp)
                have hlow2 : d - c - eps ≤ paid_out dn (settleFuel fuel ((dn, d - c) :: ds) cs) := hlow
                have hhigh2 : paid_out dn (settleFuel fuel ((dn, d - c) :: ds) cs) ≤ d - c := hhigh
                have hval : paid_out (dn, d).1
                    (Transaction.mk dn cn c :: settleFuel fuel ((dn, d - c) :: ds) cs) =
                    c + paid_out dn (settleFuel fuel ((dn, d - c) :: ds) cs) := by
                  simp [paid_out]
                rw [hval]
                exact ⟨by simpa using by linarith, by simpa using by linarith⟩
              · have hp1 : p.1 ∈ ds.map Prod.fst := List.mem_map_of_mem Prod.fst hp
                have hne : dn ≠ p.1 := fun h => hdn_nin (h ▸ hp1)
                have hval : paid_out p.1
                    (Transaction.mk dn cn c :: settleFuel fuel ((dn, d - c) :: ds) cs) =
                    paid_out p.1 (settleFuel fuel ((dn, d - c) :: ds) cs) := by
                  simp [paid_out, hne]
                rw [hval]
                exact ih1 p (List.mem_cons_of_mem _ hp)
            · intro p hp
              rcases List.mem_cons.1 hp with rfl | hp
              · have hval : received (cn, c).1
                    (Transaction.mk dn cn c :: settleFuel fuel ((dn, d - c) :: ds) cs) = c := by
                  simp [received, received_settleFuel_zero hcn_nin]
                rw [hval]
                exact ⟨by simpa using by linarith [eps_pos], by simp⟩
              · have hp1 : p.1 ∈ cs.map Prod.fst := List.mem_map_of_mem Prod.fst hp
                have hne : cn ≠ p.1 := fun h => hcn_nin (h ▸ hp1)
                have hval : received p.1
                    (Transaction.mk dn cn c :: settleFuel fuel ((dn, d - c) :: ds) cs) =
                    received p.1 (settleFuel fuel ((dn, d - c) :: ds) cs) := by
                  simp [received, hne]
                rw [hval]
                exact ih2 p hp
          · -- exact match, both are consumed
            have heq : d = c := le_antisymm (not_lt.1 hcd) (not_lt.1 hdc)
            subst heq
            have hstep : settleFuel (fuel + 1) ((dn, d) :: ds) ((cn, d) :: cs) =
                Transaction.mk dn cn d :: settleFuel fuel ds cs := by
              simp [settleFuel]
            obtain ⟨ih1, ih2⟩ := ih ds cs
              (by omega)
              (fun p hp => hdpos p (List.mem_cons_of_mem _ hp))
              (fun p hp => hcpos p (List.mem_cons_of_mem _ hp))
              (fun p hp => hdtail p (List.mem_of_mem_tail hp))
              (fun p hp => hctail p (List.mem_of_mem_tail hp))
              (by linarith)
              (by linarith)
              hdnd hcnd
            rw [hstep]
            constructor
            · intro p hp
              rcases List.mem_cons.1 hp with rfl | hp
              · have hval : paid_out (dn, d).1
                    (Transaction.mk dn cn d :: settleFuel fuel ds cs) = d := by
                  simp [paid_out, paid_out_settleFuel_zero hdn_nin]
                rw [hval]
                exact ⟨by simpa using by linarith [eps_pos], by simp⟩
              · have hp1 : p.1 ∈ ds.map Prod.fst := List.mem_map_of_mem Prod.fst hp
                have hne : dn ≠ p.1 := fun h => hdn_nin (h ▸ hp1)
                have hval : paid_out p.1
                    (Transaction.mk dn cn d :: settleFuel fuel ds cs) =
                    paid_out p.1 (settleFuel fuel ds cs) := by
                  simp [paid_out, hne]
                rw [hval]
                exact ih1 p hp
            · intro p hp
              rcases List.mem_cons.1 hp with rfl | hp
              · have hval : received (cn, d).1
                    (Transaction.mk dn cn d :: settleFuel fuel ds cs) = d := by
                  simp [received, received_settleFuel_zero hcn_nin]
                rw [hval]
                exact ⟨by simpa using by linarith [eps_pos], by simp⟩
              · have hp1 : p.1 ∈ cs.map Prod.fst := List.mem_map_of_mem Prod.fst hp
                have hne : cn ≠ p.1 := fun h => hcn_nin (h ▸ hp1)
                have hval : received p.1
                    (Transaction.mk dn cn d :: settleFuel fuel ds cs) =
                    received p.1 (settleFuel fuel ds cs) := by
                  simp [received, hne]
                rw [hval]
                exact ih2 p hp

lemma sort_mem_iff {p : String × ℚ} {l : List (String × ℚ)} :
    p ∈ sort_by_amount l ↔ p ∈ l :=
  (sort_by_amount_perm l).mem_iff

lemma sort_names_perm (l : List (String × ℚ)) :
    List.Perm ((sort_by_amount l).map Prod.fst) (l.map Prod.fst) :=
  (sort_by_amount_perm l).map Prod.fst

lemma creditors_of_eq (bs : Balances) :
    creditors_of bs = bs.filter (fun p => eps < p.2) := by
  simp [creditors_of]

lemma debtors_names_sublist (bs : Balances) :
    ((debtors_of bs).map Prod.fst).Sublist (bs.map Prod.fst) := by
  have h1 : (debtors_of bs).map Prod.fst =
      (bs.filter (fun p => p.2 < -eps)).map Prod.fst := by
    simp [debtors_of, Function.comp]
  rw [h1]
  exact (List.filter_sublist bs).map Prod.fst

lemma creditors_names_sublist (bs : Balances) :
    ((creditors_of bs).map Prod.fst).Sublist (bs.map Prod.fst) := by
  rw [creditors_of_eq]
  exact (List.filter_sublist bs).map Prod.fst

lemma mem_debtors_of {bs : Balances} {q : String × ℚ}
    (hq : q ∈ bs) (hlt : q.2 < -eps) : (q.1, -q.2) ∈ debtors_of bs := by
  simp only [debtors_of, List.mem_map, List.mem_filter]
  exact ⟨q, ⟨hq, by simpa using hlt⟩, rfl⟩

lemma mem_creditors_of {bs : Balances} {q : String × ℚ}
    (hq : q ∈ bs) (hlt : eps < q.2) : q ∈ creditors_of bs := by
  rw [creditors_of_eq]
  exact List.mem_filter.2 ⟨hq, by simpa using hlt⟩

lemma debtor_name_balance {bs : Balances} {n : String}
    (h : n ∈ (debtors_of bs).map Prod.fst) : ∃ b, (n, b) ∈ bs ∧ b < -eps := by
  simp only [debtors_of, List.map_map, List.mem_map, Function.comp,
    List.mem_filter] at h
  obtain ⟨q, ⟨hq, hlt⟩, rfl⟩ := h
  exact ⟨q.2, by simpa using hq, by simpa using hlt⟩

lemma creditor_name_balance {bs : Balances} {n : String}
    (h : n ∈ (creditors_of bs).map Prod.fst) : ∃ b, (n, b) ∈ bs ∧ eps < b := by
  rw [creditors_of_eq] at h
  simp only [List.mem_map, List.mem_filter] at h
  obtain ⟨q, ⟨hq, hlt⟩, rfl⟩ := h
  exact ⟨q.2, by simpa using hq, by simpa using hlt⟩

lemma debtors_amount_pos {bs : Balances} {p : String × ℚ}
    (hp : p ∈ debtors_of bs) : eps < p.2 := by
  simp only [debtors_of, List.mem_map, List.mem_filter] at hp
  obtain ⟨q, ⟨_, hlt⟩, rfl⟩ := hp
  simp only [decide_eq_true_eq] at hlt
  simpa using by linarith

lemma creditors_amount_pos {bs : Balances} {p : String × ℚ}
    (hp : p ∈ creditors_of bs) : eps < p.2 := by
  rw [creditors_of_eq] at hp
  exact of_decide_eq_true (List.mem_filter.1 hp).2

lemma debtors_snd (bs : Balances) :
    (debtors_of bs).map Prod.snd =
      (bs.filter (fun p => p.2 < -eps)).map (fun p => -p.2) := by
  simp [debtors_of, List.map_map, Function.comp]

lemma creditors_snd (bs : Balances) :
    (creditors_of bs).map Prod.snd =
      (bs.filter (fun p => eps < p.2)).map (fun p => p.2) := by
  simp [creditors_of, List.map_map, Function.comp]

lemma sum_split_filters :
    ∀ bs : Balances, (∀ p ∈ bs, p.2 = 0 ∨ eps < p.2 ∨ p.2 < -eps) →
      (bs.map Prod.snd).sum =
        ((bs.filter (fun p => eps < p.2)).map (fun p => p.2)).sum -
          ((bs.filter (fun p => p.2 < -eps)).map (fun p => -p.2)).sum
  | [], _ => by simp
  | p :: ps, hbig => by
    have ihs := sum_split_filters ps (fun q hq => hbig q (List.mem_cons_of_mem _ hq))
    rcases hbig p (by simp) with h0 | hpos | hneg
    · have h1 : decide (p.2 < -eps) = false :=
        decide_eq_false (by rw [h0]; exact not_lt.2 (by linarith [eps_pos]))
      have h2 : decide (eps < p.2) = false :=
        decide_eq_false (by rw [h0]; exact not_lt.2 (le_of_lt eps_pos))
      simp only [List.map_cons, List.sum_cons, List.filter_cons, h1, h2,
        Bool.false_eq_true, if_false]
      rw [h0]; linarith
    · have h1 : decide (p.2 < -eps) = false :=
        decide_eq_false (not_lt.2 (by linarith [eps_pos]))
      have h2 : decide (eps < p.2) = true := decide_eq_true hpos
      simp only [List.map_cons, List.sum_cons, List.filter_cons, h1, h2,
        Bool.false_eq_true, if_false, if_true, List.map_cons, List.sum_cons]
      linarith
    · have h1 : decide (p.2 < -eps) = true := decide_eq_true hneg
      have h2 : decide (eps < p.2) = false :=
        decide_eq_false (not_lt.2 (by linarith [eps_pos]))
      simp only [List.map_cons, List.sum_cons, List.filter_cons, h1, h2,
        Bool.false_eq_true, if_false, if_true, List.map_cons, List.sum_cons]
      linarith

/-- Splitting the total balance over the partition done by the first
loop of `optimize_payments`, valid when no balance lies strictly
between 0 and the tolerance in absolute value. -/
lemma sum_split (bs : Balances)
    (hbig : ∀ p ∈ bs, p.2 = 0 ∨ eps < p.2 ∨ p.2 < -eps) :
    (bs.map Prod.snd).sum =
      ((creditors_of bs).map Prod.snd).sum -
        ((debtors_of bs).map Prod.snd).sum := by
  rw [debtors_snd, creditors_snd]
  exact sum_split_filters bs hbig

lemma optimize_payments_eq (bs : Balances) :
    optimize_payments bs =
      settleFuel
        ((sort_by_amount (debtors_of bs)).length +
          (sort_by_amount (creditors_of bs)).length)
        (sort_by_amount (debtors_of bs))
        (sort_by_amount (creditors_of bs)) := rfl

lemma not_debtor_name {bs : Balances} (hnd : (bs.map Prod.fst).Nodup)
    {p : String × ℚ} (hp : p ∈ bs) (hge : -eps ≤ p.2) :
    p.1 ∉ (sort_by_amount (debtors_of bs)).map Prod.fst := by
  intro h
  obtain ⟨b, hb, hlt⟩ := debtor_name_balance ((sort_names_perm _).mem_iff.1 h)
  have hpe : (p.1, p.2) ∈ bs := by rw [Prod.mk.eta]; exact hp
  have hbe := keys_inj hnd hb hpe
  linarith

lemma not_creditor_name {bs : Balances} (hnd : (bs.map Prod.fst).Nodup)
    {p : String × ℚ} (hp : p ∈ bs) (hle : p.2 ≤ eps) :
    p.1 ∉ (sort_by_amount (creditors_of bs)).map Prod.fst := by
  intro h
  obtain ⟨b, hb, hlt⟩ := creditor_name_balance ((sort_names_perm _).mem_iff.1 h)
  have hpe : (p.1, p.2) ∈ bs := by rw [Prod.mk.eta]; exact hp
  have hbe := keys_inj hnd hb hpe
  linarith

/-- C1, amended.  For every balance map with distinct participant names
whose values sum to 0 within the tolerance and in which every single
balance is either exactly 0 or larger than the tolerance in absolute
value, executing the transfers returned by `optimize_payments` leaves
every participant's balance within the tolerance of zero.  (Executing a
transfer moves the sender's net balance up by the amount and the
receiver's down, the convention under which a negative balance means
money owed, as in the source.) -/
theorem optimize_payments_settles (bs : Balances)
    (hnd : (bs.map Prod.fst).Nodup)
    (hsum_lo : -eps ≤ (bs.map Prod.snd).sum)
    (hsum_hi : (bs.map Prod.snd).sum ≤ eps)
    (hbig : ∀ p ∈ bs, p.2 = 0 ∨ eps < p.2 ∨ p.2 < -eps) :
    ∀ p ∈ bs, -eps ≤ apply_transfers p.2 p.1 (optimize_payments bs) ∧
              apply_transfers p.2 p.1 (optimize_payments bs) ≤ eps := by
  have hDe : ∀ q ∈ sort_by_amount (debtors_of bs), eps < q.2 :=
    fun q hq => debtors_amount_pos (sort_mem_iff.1 hq)
  have hCe : ∀ q ∈ sort_by_amount (creditors_of bs), eps < q.2 :=
    fun q hq => creditors_amount_pos (sort_mem_iff.1 hq)
  have hDnd : ((sort_by_amount (debtors_of bs)).map Prod.fst).Nodup :=
    (sort_names_perm _).nodup_iff.2 ((debtors_names_sublist bs).nodup hnd)
  have hCnd : ((sort_by_amount (creditors_of bs)).map Prod.fst).Nodup :=
    (sort_names_perm _).nodup_iff.2 ((creditors_names_sublist bs).nodup hnd)
  have hDsum : ((sort_by_amount (debtors_of bs)).map Prod.snd).sum =
      ((debtors_of bs).map Prod.snd).sum :=
    ((sort_by_amount_perm _).map Prod.snd).sum_eq
  have hCsum : ((sort_by_amount (creditors_of bs)).map Prod.snd).sum =
      ((creditors_of bs).map Prod.snd).sum :=
    ((sort_by_amount_perm _).map Prod.snd).sum_eq
  have hsplit := sum_split bs hbig
  obtain ⟨HD, HC⟩ := settleFuel_bounds
    ((sort_by_amount (debtors_of bs)).length +
      (sort_by_amount (creditors_of bs)).length)
    (sort_by_amount (debtors_of bs)) (sort_by_amount (creditors_of bs))
    (le_refl _)
    (fun q hq => lt_trans eps_pos (hDe q hq))
    (fun q hq => lt_trans eps_pos (hCe q hq))
    (fun q hq => hDe q (List.mem_of_mem_tail hq))
    (fun q hq => hCe q (List.mem_of_mem_tail hq))
    (by rw [hDsum, hCsum]; linarith)
    (by rw [hDsum, hCsum]; linarith)
    hDnd hCnd
  intro p hp
  have hpe : (p.1, p.2) ∈ bs := by rw [Prod.mk.eta]; exact hp
  rw [optimize_payments_eq bs]
  rcases hbig p hp with h0 | hpos | hneg
  · have hpz := @paid_out_settleFuel_zero p.1
      ((sort_by_amount (debtors_of bs)).length +
        (sort_by_amount (creditors_of bs)).length)
      (sort_by_amount (debtors_of bs)) (sort_by_amount (creditors_of bs))
      (not_debtor_name hnd hp (by rw [h0]; linarith [eps_pos]))
    have hrz := @received_settleFuel_zero p.1
      ((sort_by_amount (debtors_of bs)).length +
        (sort_by_amount (creditors_of bs)).length)
      (sort_by_amount (debtors_of bs)) (sort_by_amount (creditors_of bs))
      (not_creditor_name hnd hp (by rw [h0]; linarith [eps_pos]))
    rw [apply_transfers, hpz, hrz, h0]
    constructor <;> simp <;> linarith [eps_pos]
  · have hmemC : (p.1, p.2) ∈ sort_by_amount (creditors_of bs) :=
      sort_mem_iff.2 (mem_creditors_of hpe (by simpa using hpos))
    obtain ⟨hlo, hhi⟩ := HC (p.1, p.2) hmemC
    have hlo2 : p.2 - eps ≤ received p.1
        (settleFuel
          ((sort_by_amount (debtors_of bs)).length +
            (sort_by_amount (creditors_of bs)).length)
          (sort_by_amount (debtors_of bs))
          (sort_by_amount (creditors_of bs))) := hlo
    have hhi2 : received p.1
        (settleFuel
          ((sort_by_amount (debtors_of bs)).length +
            (sort_by_amount (creditors_of bs)).length)
          (sort_by_amount (debtors_of bs))
          (sort_by_amount (creditors_of bs))) ≤ p.2 := hhi
    have hpz := @paid_out_settleFuel_zero p.1
      ((sort_by_amount (debtors_of bs)).length +
        (sort_by_amount (creditors_of bs)).length)
      (sort_by_amount (debtors_of bs)) (sort_by_amount (creditors_of bs))
      (not_debtor_name hnd hp (by linarith [eps_pos]))
    rw [apply_transfers, hpz]
    constructor <;> linarith
  · have hmemD : (p.1, -p.2) ∈ sort_by_amount (debtors_of bs) :=
      sort_mem_iff.2 (mem_debtors_of hpe (by simpa using hneg))
    obtain ⟨hlo, hhi⟩ := HD (p.1, -p.2) hmemD
    have hlo2 : -p.2 - eps ≤ paid_out p.1
        (settleFuel
          ((sort_by_amount (debtors_of bs)).length +
            (sort_by_amount (creditors_of bs)).length)
          (sort_by_amount (debtors_of bs))
          (sort_by_amount (creditors_of bs))) := hlo
    have hhi2 : paid_out p.1
        (settleFuel
          ((sort_by_amount (debtors_of bs)).length +
            (sort_by_amount (creditors_of bs)).length)
          (sort_by_amount (debtors_of bs))
          (sort_by_amount (creditors_of bs))) ≤ -p.2 := hhi
    have hrz := @received_settleFuel_zero p.1
      ((sort_by_amount (debtors_of bs)).length +
        (sort_by_amount (creditors_of bs)).length)
      (sort_by_amount (debtors_of bs)) (sort_by_amount (creditors_of bs))
      (not_creditor_name hnd hp (by linarith [eps_pos]))
    rw [apply_transfers, hrz]
    constructor <;> linarith

/-- The three-participant example of the specification,
`{A: +30, B: -10, C: -20}`. -/
def exBalances : Balances := [("A", 30), ("B", -10), ("C", -20)]

/-- A balance map summing to exactly 0 whose sub-tolerance entries are
dropped by the partition loop, so their total accumulates on the
remaining creditor. -/
def smallResidueBalances : Balances :=
  [("A", 103/100), ("B", -1), ("C", -1/100), ("D", -1/100), ("E", -1/100)]

/-- C1, counterexample to the claim as stated.  The balances of
`smallResidueBalances` sum to exactly 0 (well within the tolerance),
yet after applying the single returned transfer the creditor A is left
at 3/100, which exceeds the tolerance 1/100 — and under the claim's
literal sign convention (amount subtracted from the sender, added to
the receiver) A is left at 203/100, even farther from zero. -/
theorem optimize_payments_settles_cex :
    ((smallResidueBalances.map Prod.snd).sum = 0) ∧
    ("A", 103/100) ∈ smallResidueBalances ∧
    optimize_payments smallResidueBalances = [Transaction.mk "B" "A" 1] ∧
    apply_transfers_as_stated (103/100) "A"
      (optimize_payments smallResidueBalances) = 203/100 ∧
    apply_transfers (103/100) "A"
      (optimize_payments smallResidueBalances) = 3/100 ∧
    eps < 203/100 ∧ eps < 3/100 := by
  with_unfolding_all decide

/-- C1, witness: the amended settlement theorem applied to the
specification's own example `{A: +30, B: -10, C: -20}`. -/
theorem optimize_payments_settles_witness :
    List.Nodup (exBalances.map Prod.fst) ∧
    -eps ≤ (exBalances.map Prod.snd).sum ∧
    (exBalances.map Prod.snd).sum ≤ eps ∧
    (∀ p ∈ exBalances, p.2 = 0 ∨ eps < p.2 ∨ p.2 < -eps) ∧
    (∀ p ∈ exBalances,
      -eps ≤ apply_transfers p.2 p.1 (optimize_payments exBalances) ∧
      apply_transfers p.2 p.1 (optimize_payments exBalances) ≤ eps) :=
  ⟨by with_unfolding_all decide, by with_unfolding_all decide,
   by with_unfolding_all decide, by with_unfolding_all decide,
   optimize_payments_settles exBalances (by with_unfolding_all decide)
     (by with_unfolding_all decide) (by with_unfolding_all decide)
     (by with_unfolding_all decide)⟩

lemma settleFuel_length :
    ∀ (fuel : ℕ) (ds cs : List (String × ℚ)),
      (settleFuel fuel ds cs).length ≤ ds.length + cs.length - 1
  | 0, _, _ => by simp [settleFuel]
  | _ + 1, [], _ => by simp [settleFuel]
  | _ + 1, _ :: _, [] => by simp [settleFuel]
  | fuel + 1, (dn, d) :: ds, (cn, c) :: cs => by
    by_cases hdc : d < c
    · have h := settleFuel_length fuel ds ((cn, c - d) :: cs)
      simp only [settleFuel, if_pos hdc, List.length_cons] at h ⊢
      omega
    · by_cases hcd : c < d
      · have h := settleFuel_length fuel ((dn, d - c) :: ds) cs
        simp only [settleFuel, if_neg hdc, if_pos hcd, List.length_cons] at h ⊢
        omega
      · have h := settleFuel_length fuel ds cs
        simp only [settleFuel, if_neg hdc, if_neg hcd, List.length_cons] at h ⊢
        omega

lemma partition_length (bs : Balances) :
    (debtors_of bs).length + (creditors_of bs).length ≤ bs.length := by
  induction bs with
  | nil => simp [debtors_of, creditors_of]
  | cons p ps ih =>
    by_cases h1 : p.2 < -eps
    · have h2 : ¬ eps < p.2 := by
        intro h; linarith [eps_pos]
      simp only [debtors_of, creditors_of, List.filter_cons, h1, h2,
        decide_True, decide_False, if_true, Bool.false_eq_true, if_false,
        List.length_map, List.length_cons] at ih ⊢
      omega
    · by_cases h2 : eps < p.2
      · simp only [debtors_of, creditors_of, List.filter_cons, h1, h2,
          decide_True, decide_False, if_true, Bool.false_eq_true, if_false,
          List.length_map, List.length_cons] at ih ⊢
        omega
      · simp only [debtors_of, creditors_of, List.filter_cons, h1, h2,
          decide_False, Bool.false_eq_true, if_false,
          List.length_map, List.length_cons] at ih ⊢
        omega

/-- C5: for every input balance map, the transfer list returned by
`optimize_payments` has at most one transfer less than there are
participants (natural-number subtraction: an empty input yields an
empty output). -/
theorem optimize_payments_count (bs : Balances) :
    (optimize_payments bs).length ≤ bs.length - 1 := by
  have h := settleFuel_length
    ((sort_by_amount (debtors_of bs)).length +
      (sort_by_amount (creditors_of bs)).length)
    (sort_by_amount (debtors_of bs)) (sort_by_amount (creditors_of bs))
  have hD : (sort_by_amount (debtors_of bs)).length = (debtors_of bs).length :=
    (sort_by_amount_perm _).length_eq
  have hC : (sort_by_amount (creditors_of bs)).length = (creditors_of bs).length :=
    (sort_by_amount_perm _).length_eq
  have hP := partition_length bs
  rw [optimize_payments_eq]
  omega

lemma sum_indicator (a : ℚ) (m : String) :
    ∀ ns : List String, ns.Nodup → m ∈ ns →
      (ns.map (fun n => if m = n then a else 0)).sum = a := by
  intro ns
  induction ns with
  | nil => intro _ hm; simp at hm
  | cons n ns ih =>
    intro hnd hm
    rcases List.mem_cons.1 hm with rfl | hm
    · simp only [List.map_cons, List.sum_cons, if_pos rfl]
      have hz : (ns.map (fun x => if m = x then a else 0)).sum = 0 := by
        apply List.sum_eq_zero
        intro y hy
        obtain ⟨x, hx, rfl⟩ := List.mem_map.1 hy
        have hne : m ≠ x := fun h => (List.nodup_cons.1 hnd).1 (h ▸ hx)
        simp [hne]
      rw [hz]; simp
    · have hne : m ≠ n := fun h => (List.nodup_cons.1 hnd).1 (h ▸ hm)
      simp only [List.map_cons, List.sum_cons, if_neg hne]
      rw [ih (List.nodup_cons.1 hnd).2 hm]; ring

lemma sum_paid_out :
    ∀ (ts : List Transaction) (ns : List String), ns.Nodup →
      (∀ t ∈ ts, t.t_from ∈ ns) →
      (ns.map (fun n => paid_out n ts)).sum = (ts.map Transaction.amount).sum
  | [], ns, _, _ => by simp [paid_out]
  | t :: ts, ns, hnd, hmem => by
    have hrec := sum_paid_out ts ns hnd (fun u hu => hmem u (List.mem_cons_of_mem _ hu))
    have hind := sum_indicator t.amount t.t_from ns hnd (hmem t (by simp))
    calc (ns.map (fun n => paid_out n (t :: ts))).sum
        = (ns.map (fun n =>
            (if t.t_from = n then t.amount else 0) + paid_out n ts)).sum := by
          simp only [paid_out]
      _ = (ns.map (fun n => if t.t_from = n then t.amount else 0)).sum +
          (ns.map (fun n => paid_out n ts)).sum := by
          rw [List.sum_map_add]
      _ = t.amount + (ts.map Transaction.amount).sum := by rw [hind, hrec]
      _ = ((t :: ts).map Transaction.amount).sum := by simp

lemma sum_received :
    ∀ (ts : List Transaction) (ns : List String), ns.Nodup →
      (∀ t ∈ ts, t.t_to ∈ ns) →
      (ns.map (fun n => received n ts)).sum = (ts.map Transaction.amount).sum
  | [], ns, _, _ => by simp [received]
  | t :: ts, ns, hnd, hmem => by
    have hrec := sum_received ts ns hnd (fun u hu => hmem u (List.mem_cons_of_mem _ hu))
    have hind := sum_indicator t.amount t.t_to ns hnd (hmem t (by simp))
    calc (ns.map (fun n => received n (t :: ts))).sum
        = (ns.map (fun n =>
            (if t.t_to = n then t.amount else 0) + received n ts)).sum := by
          simp only [received]
      _ = (ns.map (fun n => if t.t_to = n then t.amount else 0)).sum +
          (ns.map (fun n => received n ts)).sum := by
          rw [List.sum_map_add]
      _ = t.amount + (ts.map Transaction.amount).sum := by rw [hind, hrec]
      _ = ((t :: ts).map Transaction.amount).sum := by simp

lemma sum_apply (ts : List Transaction) :
    ∀ bs : Balances,
      (bs.map (fun p => apply_transfers p.2 p.1 ts)).sum =
        (bs.map Prod.snd).sum +
          ((bs.map Prod.fst).map (fun n => paid_out n ts)).sum -
          ((bs.map Prod.fst).map (fun n => received n ts)).sum
  | [] => by simp
  | p :: bs => by
    have hrec := sum_apply ts bs
    simp only [List.map_cons, List.sum_cons, apply_transfers] at hrec ⊢
    linarith

lemma transfers_from_names (bs : Balances) :
    ∀ t ∈ optimize_payments bs, t.t_from ∈ bs.map Prod.fst := by
  intro t ht
  rw [optimize_payments_eq] at ht
  have h1 := settleFuel_from_mem _ _ _ t ht
  exact (debtors_names_sublist bs).subset ((sort_names_perm _).mem_iff.1 h1)

lemma transfers_to_names (bs : Balances) :
    ∀ t ∈ optimize_payments bs, t.t_to ∈ bs.map Prod.fst := by
  intro t ht
  rw [optimize_payments_eq] at ht
  have h1 := settleFuel_to_mem _ _ _ t ht
  exact (creditors_names_sublist bs).subset ((sort_names_perm _).mem_iff.1 h1)

/-- The optimizer never invents or destroys money: applying the
returned transfers preserves the total of all balances. -/
lemma apply_transfers_conserves (bs : Balances)
    (hnd : (bs.map Prod.fst).Nodup) :
    (bs.map (fun p => apply_transfers p.2 p.1 (optimize_payments bs))).sum =
      (bs.map Prod.snd).sum := by
  rw [sum_apply,
    sum_paid_out (optimize_payments bs) (bs.map Prod.fst) hnd (transfers_from_names bs),
    sum_received (optimize_payments bs) (bs.map Prod.fst) hnd (transfers_to_names bs)]
  ring

/-- C6, amended.  `optimize_payments` performs no validation: on an
input whose balances do not sum to 0 it still returns a transfer list,
and since applying the transfers conserves the total, the balances
cannot all end at zero — the incorrect settlement is produced silently
instead of being surfaced as a failure. -/
theorem optimize_payments_no_validation (bs : Balances)
    (hnd : (bs.map Prod.fst).Nodup)
    (hsum : (bs.map Prod.snd).sum ≠ 0) :
    ∃ p ∈ bs, apply_transfers p.2 p.1 (optimize_payments bs) ≠ 0 := by
  by_contra h
  push_neg at h
  have hz : (bs.map (fun p => apply_transfers p.2 p.1 (optimize_payments bs))).sum = 0 :=
    List.sum_eq_zero (by
      intro x hx
      obtain ⟨p, hp, rfl⟩ := List.mem_map.1 hx
      exact h p hp)
  rw [apply_transfers_conserves bs hnd] at hz
  exact hsum hz

/-- C6, counterexample to the claim as stated.  On the unbalanced input
`{A: +10, B: -5}` the optimizer does not fail: it returns the transfer
list `[B pays A 5]`, and A is silently left with a residual balance of
5, far outside the tolerance. -/
theorem optimize_payments_no_validation_cex :
    ((([("A", 10), ("B", -5)] : Balances).map Prod.snd).sum = 5) ∧
    optimize_payments [("A", 10), ("B", -5)] = [Transaction.mk "B" "A" 5] ∧
    apply_transfers 10 "A" (optimize_payments [("A", 10), ("B", -5)]) = 5 ∧
    eps < 5 := by
  with_unfolding_all decide

/-- C6, witness: the amended theorem applied to the unbalanced input
`{A: +10, B: -5}`. -/
theorem optimize_payments_no_validation_witness :
    List.Nodup (([("A", 10), ("B", -5)] : Balances).map Prod.fst) ∧
    (([("A", 10), ("B", -5)] : Balances).map Prod.snd).sum ≠ 0 ∧
    ∃ p ∈ ([("A", 10), ("B", -5)] : Balances),
      apply_transfers p.2 p.1 (optimize_payments [("A", 10), ("B", -5)]) ≠ 0 :=
  ⟨by with_unfolding_all decide, by with_unfolding_all decide,
   optimize_payments_no_validation [("A", 10), ("B", -5)]
     (by with_unfolding_all decide) (by with_unfolding_all decide)⟩

/-- C10: in the output of `optimize_payments` on a map with distinct
participant names, every sender holds an input balance below `-eps`,
every receiver one above `eps`, no participant occurs both as a sender
and as a receiver, and a participant whose balance is within the
tolerance occurs in no transfer. -/
theorem optimize_payments_role_separation (bs : Balances)
    (hnd : (bs.map Prod.fst).Nodup) :
    (∀ t ∈ optimize_payments bs,
        (∃ b, (t.t_from, b) ∈ bs ∧ b < -eps) ∧
        (∃ b, (t.t_to, b) ∈ bs ∧ eps < b)) ∧
    (∀ t ∈ optimize_payments bs, ∀ u ∈ optimize_payments bs,
        t.t_from ≠ u.t_to) ∧
    (∀ p ∈ bs, -eps ≤ p.2 → p.2 ≤ eps →
        ∀ t ∈ optimize_payments bs, t.t_from ≠ p.1 ∧ t.t_to ≠ p.1) := by
  have hfrom : ∀ t ∈ optimize_payments bs,
      ∃ b, (t.t_from, b) ∈ bs ∧ b < -eps := by
    intro t ht
    rw [optimize_payments_eq] at ht
    exact debtor_name_balance
      ((sort_names_perm _).mem_iff.1 (settleFuel_from_mem _ _ _ t ht))
  have hto : ∀ t ∈ optimize_payments bs,
      ∃ b, (t.t_to, b) ∈ bs ∧ eps < b := by
    intro t ht
    rw [optimize_payments_eq] at ht
    exact creditor_name_balance
      ((sort_names_perm _).mem_iff.1 (settleFuel_to_mem _ _ _ t ht))
  refine ⟨fun t ht => ⟨hfrom t ht, hto t ht⟩, ?_, ?_⟩
  · intro t ht u hu heq
    obtain ⟨b1, hb1, hlt1⟩ := hfrom t ht
    obtain ⟨b2, hb2, hlt2⟩ := hto u hu
    have := keys_inj hnd (heq ▸ hb1) hb2
    linarith [eps_pos]
  · intro p hp hge hle t ht
    constructor
    · intro heq
      obtain ⟨b, hb, hlt⟩ := hfrom t ht
      have hpe : (p.1, p.2) ∈ bs := by rw [Prod.mk.eta]; exact hp
      have := keys_inj hnd (heq ▸ hb) hpe
      linarith
    · intro heq
      obtain ⟨b, hb, hlt⟩ := hto t ht
      have hpe : (p.1, p.2) ∈ bs := by rw [Prod.mk.eta]; exact hp
      have := keys_inj hnd (heq ▸ hb) hpe
      linarith

/-- C10, witness: role separation on the specification's example
`{A: +30, B: -10, C: -20}`. -/
theorem optimize_payments_role_separation_witness :
    List.Nodup (exBalances.map Prod.fst) ∧
    (∀ t ∈ optimize_payments exBalances,
        (∃ b, (t.t_from, b) ∈ exBalances ∧ b < -eps) ∧
        (∃ b, (t.t_to, b) ∈ exBalances ∧ eps < b)) ∧
    (∀ t ∈ optimize_payments exBalances, ∀ u ∈ optimize_payments exBalances,
        t.t_from ≠ u.t_to) :=
  ⟨by with_unfolding_all decide,
   (optimize_payments_role_separation exBalances (by with_unfolding_all decide)).1,
   (optimize_payments_role_separation exBalances (by with_unfolding_all decide)).2.1⟩

end ExpenseSplitter

namespace Snake

/-- The `Direction` enum of `snake.py` (lines 17–21). -/
inductive Direction
  | UP
  | DOWN
  | LEFT
  | RIGHT
deriving DecidableEq, Repr

/-- The unit-vector value carried by each `Direction` member. -/
def Direction.value : Direction → ℤ × ℤ
  | .UP => (0, -1)
  | .DOWN => (0, 1)
  | .LEFT => (-1, 0)
  | .RIGHT => (1, 0)

/-- The `GameState` enum of `snake.py` (lines 23–27). -/
inductive GameState
  | MENU
  | PLAYING
  | GAME_OVER
  | PAUSED
deriving DecidableEq, Repr

/-- Model of `Position.__add__` (lines 34–35): a cell plus a direction's unit
vector. -/
def posAdd (p : ℤ × ℤ) (d : Direction) : ℤ × ℤ :=
  (p.1 + d.value.1, p.2 + d.value.2)

/-- The mutable state of class `SnakeGame`, with the board dimensions
of its `GameConfig` inlined.  `start_time` records the wall-clock
instant at which `reset_game` ran; wall-clock time is an explicit
parameter of the model. -/
structure SnakeGame where
  board_width : ℤ
  board_height : ℤ
  snake : List (ℤ × ℤ)
  direction : Direction
  food : ℤ × ℤ
  score : ℕ
  food_eaten : ℕ
  start_time : ℚ
  moves_made : ℕ
  game_state : GameState
deriving DecidableEq, Repr

namespace SnakeGame

/-- Model of `is_valid_position` (lines 92–94). -/
def is_valid_position (g : SnakeGame) (p : ℤ × ℤ) : Prop :=
  0 ≤ p.1 ∧ p.1 < g.board_width ∧ 0 ≤ p.2 ∧ p.2 < g.board_height

instance (g : SnakeGame) (p : ℤ × ℤ) : Decidable (g.is_valid_position p) := by
  unfold is_valid_position; infer_instance

/-- Model of `reset_game` (lines 66–81): a three-segment snake centered on the
board, heading RIGHT, score and counters zeroed, state PLAYING.  The
food cell drawn by `generate_food` and the wall-clock start instant are
inputs of the model. -/
def reset_game (w h : ℤ) (start : ℚ) (food0 : ℤ × ℤ) : SnakeGame :=
  { board_width := w
    board_height := h
    snake := [(w / 2, h / 2), (w / 2 - 1, h / 2), (w / 2 - 2, h / 2)]
    direction := .RIGHT
    food := food0
    score := 0
    food_eaten := 0
    start_time := start
    moves_made := 0
    game_state := .PLAYING }

/-- The `new_head = head + direction` computation at the top of
`move_snake` (lines 97–98). -/
def new_head (g : SnakeGame) : ℤ × ℤ := posAdd g.snake.headI g.direction

/-- Model of `move_snake` (lines 96–119): wall test, self-collision test, then
head insertion, move counter, and either food consumption (score +10,
food counter +1, new food cell `f`) or tail removal.  Returns the
mutated game paired with the boolean the method returns. -/
def move_snake (g : SnakeGame) (f : ℤ × ℤ) : SnakeGame × Bool :=
  if ¬ g.is_valid_position g.new_head then (g, false)
  else if g.new_head ∈ g.snake then (g, false)
  else if g.new_head = g.food then
    ({ g with snake := g.new_head :: g.snake,
              moves_made := g.moves_made + 1,
              score := g.score + 10,
              food_eaten := g.food_eaten + 1,
              food := f }, true)
  else
    ({ g with snake := (g.new_head :: g.snake).dropLast,
              moves_made := g.moves_made + 1 }, true)

/-- The `opposite` table of `change_direction` (lines 123–128). -/
def opposite : Direction → Direction
  | .UP => .DOWN
  | .DOWN => .UP
  | .LEFT => .RIGHT
  | .RIGHT => .LEFT

/-- Model of `change_direction` (lines 121–130): a request for the exact
opposite of the current direction is ignored.  The method itself has no
game-state guard; the driver-level guard lives in `press_direction`. -/
def change_direction (g : SnakeGame) (d : Direction) : SnakeGame :=
  if d ≠ opposite g.direction then { g with direction := d } else g

/-- Model of `get_game_time` (lines 132–133): wall-clock `now` minus
`start_time`. -/
def get_game_time (g : SnakeGame) (now : ℚ) : ℚ := now - g.start_time

end SnakeGame

open SnakeGame

/-- A direction button press in `main` (lines 461–479): each handler
calls `change_direction` only while the game state is PLAYING. -/
def press_direction (g : SnakeGame) (d : Direction) : SnakeGame :=
  if g.game_state = GameState.PLAYING then g.change_direction d else g

/-- One auto-refresh tick of `main` (lines 411–433): while PLAYING,
`move_snake` runs and a false return switches the state to GAME_OVER;
in any other state no move happens.  `f` is the food cell that
`generate_food` would draw if the move consumes the food. -/
def game_tick (g : SnakeGame) (f : ℤ × ℤ) : SnakeGame :=
  if g.game_state = GameState.PLAYING then
    let r := g.move_snake f
    if r.2 then r.1 else { r.1 with game_state := GameState.GAME_OVER }
  else g

/-- The pause button of `main` (lines 365–368), shown only while
PLAYING. -/
def pause_button (g : SnakeGame) : SnakeGame :=
  if g.game_state = GameState.PLAYING then
    { g with game_state := GameState.PAUSED }
  else g

/-- The resume button of `main` (lines 369–373), shown only while
PAUSED.  It resets the move-cadence timer `last_move_time` (not part of
the engine state) but leaves `start_time` untouched. -/
def resume_button (g : SnakeGame) : SnakeGame :=
  if g.game_state = GameState.PAUSED then
    { g with game_state := GameState.PLAYING }
  else g

/-- Model of `generate_food` (lines 83–90) as a function of the stream `cands`
of cells drawn by the two `random.randint` calls: scan the stream from
index `i` for the first cell not in the snake.  `fuel` bounds how many
iterations of the unbounded Python `while True` loop are inspected. -/
def generate_food_fuel (cands : ℕ → ℤ × ℤ) (snake : List (ℤ × ℤ)) :
    ℕ → ℕ → Option (ℤ × ℤ)
  | _, 0 => none
  | i, fuel + 1 =>
    if cands i ∈ snake then generate_food_fuel cands snake (i + 1) fuel
    else some (cands i)

/-- Whatever cell `generate_food` returns is outside the snake — the
postcondition assumed for the food parameters of `Reachable`. -/
lemma generate_food_fuel_not_mem (cands : ℕ → ℤ × ℤ)
    (snake : List (ℤ × ℤ)) :
    ∀ (fuel i : ℕ) (p : ℤ × ℤ),
      generate_food_fuel cands snake i fuel = some p → p ∉ snake := by
  intro fuel
  induction fuel with
  | zero => intro i p h; simp [generate_food_fuel] at h
  | succ fuel ih =>
    intro i p h
    by_cases hmem : cands i ∈ snake
    · simp only [generate_food_fuel, if_pos hmem] at h
      exact ih _ _ h
    · simp only [generate_food_fuel, if_neg hmem, Option.some.injEq] at h
      exact h ▸ hmem

/-- The condition under which a `move_snake` call consumes the food and
therefore invokes `generate_food`. -/
def eats_food (g : SnakeGame) : Prop :=
  g.game_state = GameState.PLAYING ∧ g.is_valid_position g.new_head ∧
    g.new_head ∉ g.snake ∧ g.new_head = g.food

/-- The states reachable from a fresh game by direction presses and
move ticks.  The food-cell arguments model the draws of
`generate_food`, so they satisfy exactly its postcondition: whenever
food is (re)generated, the drawn cell is on the board and outside the
snake as it stands after the head insertion. -/
inductive Reachable : SnakeGame → Prop
  | init (w h : ℤ) (start : ℚ) (f0 : ℤ × ℤ)
      (hf : (reset_game w h start f0).is_valid_position f0 ∧
            f0 ∉ (reset_game w h start f0).snake) :
      Reachable (reset_game w h start f0)
  | press (g : SnakeGame) (d : Direction) (hg : Reachable g) :
      Reachable (press_direction g d)
  | tick (g : SnakeGame) (f : ℤ × ℤ) (hg : Reachable g)
      (hf : eats_food g →
        g.is_valid_position f ∧ f ∉ g.new_head :: g.snake) :
      Reachable (game_tick g f)

lemma press_direction_frame (g : SnakeGame) (d : Direction) :
    (press_direction g d).snake = g.snake ∧
    (press_direction g d).food = g.food ∧
    (press_direction g d).score = g.score ∧
    (press_direction g d).game_state = g.game_state := by
  unfold press_direction SnakeGame.change_direction
  by_cases hp : g.game_state = GameState.PLAYING
  · by_cases hd : d ≠ opposite g.direction <;> simp [hp, hd]
  · simp [hp]

lemma game_tick_not_playing (g : SnakeGame) (f : ℤ × ℤ)
    (hp : g.game_state ≠ GameState.PLAYING) : game_tick g f = g := by
  simp [game_tick, hp]

lemma game_tick_collision (g : SnakeGame) (f : ℤ × ℤ)
    (hp : g.game_state = GameState.PLAYING)
    (hc : ¬ g.is_valid_position g.new_head ∨ g.new_head ∈ g.snake) :
    game_tick g f = { g with game_state := GameState.GAME_OVER } := by
  rcases hc with hc | hc
  · simp [game_tick, SnakeGame.move_snake, hp, hc]
  · by_cases hv : g.is_valid_position g.new_head
    · simp [game_tick, SnakeGame.move_snake, hp, hv, hc]
    · simp [game_tick, SnakeGame.move_snake, hp, hv]

lemma game_tick_eat (g : SnakeGame) (f : ℤ × ℤ)
    (hp : g.game_state = GameState.PLAYING)
    (hv : g.is_valid_position g.new_head)
    (hmem : g.new_head ∉ g.snake) (heat : g.new_head = g.food) :
    game_tick g f =
      { g with snake := g.new_head :: g.snake,
               moves_made := g.moves_made + 1,
               score := g.score + 10,
               food_eaten := g.food_eaten + 1,
               food := f } := by
  have hv2 : g.is_valid_position g.food := heat ▸ hv
  have hmem2 : g.food ∉ g.snake := heat ▸ hmem
  simp [game_tick, SnakeGame.move_snake, hp, hv2, hmem2, heat]

lemma game_tick_step (g : SnakeGame) (f : ℤ × ℤ)
    (hp : g.game_state = GameState.PLAYING)
    (hv : g.is_valid_position g.new_head)
    (hmem : g.new_head ∉ g.snake) (hneat : g.new_head ≠ g.food) :
    game_tick g f =
      { g with snake := (g.new_head :: g.snake).dropLast,
               moves_made := g.moves_made + 1 } := by
  simp [game_tick, SnakeGame.move_snake, hp, hv, hmem, hneat]

/-- C2: every state reachable from a fresh game by direction presses
and move ticks has a duplicate-free snake, and the food cell is never
inside the snake. -/
theorem reachable_snake_wellformed (g : SnakeGame) (hr : Reachable g) :
    g.snake.Nodup ∧ g.food ∉ g.snake := by
  induction hr with
  | init w hh start f0 hf =>
    constructor
    · simp [reset_game, List.nodup_cons, Prod.mk.injEq,
        show (w / 2 : ℤ) ≠ w / 2 - 1 by omega,
        show (w / 2 : ℤ) ≠ w / 2 - 2 by omega,
        show (w / 2 - 1 : ℤ) ≠ w / 2 - 2 by omega]
    · exact hf.2
  | press g d hg ih =>
    obtain ⟨hs, hfd, _, _⟩ := press_direction_frame g d
    rw [hs, hfd]
    exact ih
  | tick g f hg hf ih =>
    obtain ⟨hnd, hfood⟩ := ih
    by_cases hp : g.game_state = GameState.PLAYING
    · by_cases hv : g.is_valid_position g.new_head
      · by_cases hmem : g.new_head ∈ g.snake
        · rw [game_tick_collision g f hp (Or.inr hmem)]
          exact ⟨hnd, hfood⟩
        · by_cases heat : g.new_head = g.food
          · rw [game_tick_eat g f hp hv hmem heat]
            obtain ⟨hfv, hfnot⟩ := hf ⟨hp, hv, hmem, heat⟩
            exact ⟨List.nodup_cons.2 ⟨hmem, hnd⟩, hfnot⟩
          · rw [game_tick_step g f hp hv hmem heat]
            constructor
            · exact (List.dropLast_sublist _).nodup (List.nodup_cons.2 ⟨hmem, hnd⟩)
            · intro hin
              have hin2 : g.food ∈ g.new_head :: g.snake :=
                (List.dropLast_sublist _).subset hin
              rcases List.mem_cons.1 hin2 with heq | hin3
              · exact heat heq.symm
              · exact hfood hin3
      · rw [game_tick_collision g f hp (Or.inl hv)]
        exact ⟨hnd, hfood⟩
    · rw [game_tick_not_playing g f hp]
      exact ⟨hnd, hfood⟩

/-- A fresh game on the default 20×15 board with the initial food drawn
at the corner (0, 0). -/
def demoGame : SnakeGame := reset_game 20 15 0 (0, 0)

/-- C2, witness: the well-formedness invariant evaluated on a concrete
fresh game. -/
theorem reachable_snake_wellformed_witness :
    demoGame.snake.Nodup ∧ demoGame.food ∉ demoGame.snake :=
  reachable_snake_wellformed demoGame
    (Reachable.init 20 15 0 (0, 0) (by with_unfolding_all decide))

/-- C3: on a reachable PLAYING state whose computed new head is off the
board or on the snake, the tick ends the game and leaves the snake and
the score untouched. -/
theorem collision_transitions_game_over (g : SnakeGame) (f : ℤ × ℤ)
    (_hr : Reachable g) (hp : g.game_state = GameState.PLAYING)
    (hc : ¬ g.is_valid_position g.new_head ∨ g.new_head ∈ g.snake) :
    (game_tick g f).game_state = GameState.GAME_OVER ∧
    (game_tick g f).snake = g.snake ∧
    (game_tick g f).score = g.score := by
  rw [game_tick_collision g f hp hc]
  exact ⟨rfl, rfl, rfl⟩

/-- The fresh 20×15 game after one press of the DOWN button and seven
ticks: the head sits at (10, 14) on the bottom row, still PLAYING, and
the next tick must collide with the wall. -/
def demoCollisionGame : SnakeGame :=
  game_tick (game_tick (game_tick (game_tick (game_tick (game_tick (game_tick
    (press_direction demoGame Direction.DOWN)
    (0, 0)) (0, 0)) (0, 0)) (0, 0)) (0, 0)) (0, 0)) (0, 0)

/-- C3, witness: the wall collision at the bottom of the board ends the
game and changes neither snake nor score. -/
theorem collision_transitions_game_over_witness :
    demoCollisionGame.game_state = GameState.PLAYING ∧
    (¬ demoCollisionGame.is_valid_position demoCollisionGame.new_head ∨
      demoCollisionGame.new_head ∈ demoCollisionGame.snake) ∧
    (game_tick demoCollisionGame (0, 0)).game_state = GameState.GAME_OVER ∧
    (game_tick demoCollisionGame (0, 0)).snake = demoCollisionGame.snake ∧
    (game_tick demoCollisionGame (0, 0)).score = demoCollisionGame.score := by
  have h0 : Reachable demoGame :=
    Reachable.init 20 15 0 (0, 0) (by with_unfolding_all decide)
  have h1 : Reachable (press_direction demoGame Direction.DOWN) :=
    Reachable.press _ _ h0
  have h2 := Reachable.tick _ (0, 0) h1 (fun _ => by with_unfolding_all decide)
  have h3 := Reachable.tick _ (0, 0) h2 (fun _ => by with_unfolding_all decide)
  have h4 := Reachable.tick _ (0, 0) h3 (fun _ => by with_unfolding_all decide)
  have h5 := Reachable.tick _ (0, 0) h4 (fun _ => by with_unfolding_all decide)
  have h6 := Reachable.tick _ (0, 0) h5 (fun _ => by with_unfolding_all decide)
  have h7 := Reachable.tick _ (0, 0) h6 (fun _ => by with_unfolding_all decide)
  have h8 := Reachable.tick _ (0, 0) h7 (fun _ => by with_unfolding_all decide)
  have hr : Reachable demoCollisionGame := h8
  obtain ⟨ha, hb, hcc⟩ := collision_transitions_game_over demoCollisionGame (0, 0)
    hr (by with_unfolding_all decide) (by with_unfolding_all decide)
  exact ⟨by with_unfolding_all decide, by with_unfolding_all decide, ha, hb, hcc⟩

/-- The specification's scenario: board 20×15, snake
[(10,7),(9,7),(8,7)] facing RIGHT, food at (15,7), after five
consecutive ticks (the food drawn after consumption lands at (0,0)). -/
def scenario5 : SnakeGame :=
  game_tick (game_tick (game_tick (game_tick (game_tick
    (reset_game 20 15 0 (15, 7)) (0, 0)) (0, 0)) (0, 0)) (0, 0)) (0, 0)

/-- C4: on any reachable PLAYING state whose move does not collide, a
move onto the food grows the snake by exactly one segment, adds 10 to
the score and 1 to the food counter, while any other move keeps the
length unchanged; and in the specification's concrete 20×15 scenario,
five ticks yield score 10 and snake length 4. -/
theorem move_growth_and_scenario :
    (∀ (g : SnakeGame) (f : ℤ × ℤ), Reachable g →
      g.game_state = GameState.PLAYING →
      g.is_valid_position g.new_head → g.new_head ∉ g.snake →
      ((g.new_head = g.food →
          (game_tick g f).snake.length = g.snake.length + 1 ∧
          (game_tick g f).score = g.score + 10 ∧
          (game_tick g f).food_eaten = g.food_eaten + 1) ∧
       (g.new_head ≠ g.food →
          (game_tick g f).snake.length = g.snake.length))) ∧
    (scenario5.score = 10 ∧ scenario5.snake.length = 4) := by
  constructor
  · intro g f hr hp hv hmem
    constructor
    · intro heat
      rw [game_tick_eat g f hp hv hmem heat]
      exact ⟨by simp, rfl, rfl⟩
    · intro hneat
      rw [game_tick_step g f hp hv hmem hneat]
      simp [List.length_dropLast]
  · constructor <;> with_unfolding_all decide

/-- C4, witness: the growth rule applied to a concrete fresh game whose
next move does not reach the food, leaving the length at 3. -/
theorem move_growth_and_scenario_witness :
    (reset_game 20 15 0 (15, 7)).game_state = GameState.PLAYING ∧
    (reset_game 20 15 0 (15, 7)).is_valid_position
      (reset_game 20 15 0 (15, 7)).new_head ∧
    (reset_game 20 15 0 (15, 7)).new_head ∉ (reset_game 20 15 0 (15, 7)).snake ∧
    (reset_game 20 15 0 (15, 7)).new_head ≠ (reset_game 20 15 0 (15, 7)).food ∧
    (game_tick (reset_game 20 15 0 (15, 7)) (0, 0)).snake.length =
      (reset_game 20 15 0 (15, 7)).snake.length := by
  refine ⟨by with_unfolding_all decide, by with_unfolding_all decide,
    by with_unfolding_all decide, by with_unfolding_all decide, ?_⟩
  exact (move_growth_and_scenario.1 (reset_game 20 15 0 (15, 7)) (0, 0)
    (Reachable.init 20 15 0 (15, 7) (by with_unfolding_all decide))
    (by with_unfolding_all decide) (by with_unfolding_all decide)
    (by with_unfolding_all decide)).2 (by with_unfolding_all decide)

/-- A snake occupying every cell of a 2×2 board. -/
def full_board_2x2 : List (ℤ × ℤ) := [(0, 0), (1, 0), (0, 1), (1, 1)]

/-- C7: when the snake occupies the entire board, the `while True` loop
of `generate_food` never returns.  Every cell the `randint` pair can
draw lies inside the snake, so for every number of loop iterations the
scan yields nothing — and `GameState` has no win value the engine could
move to. -/
theorem generate_food_full_board_loops (cands : ℕ → ℤ × ℤ)
    (hc : ∀ j, 0 ≤ (cands j).1 ∧ (cands j).1 < 2 ∧
      0 ≤ (cands j).2 ∧ (cands j).2 < 2) :
    ∀ fuel i : ℕ, generate_food_fuel cands full_board_2x2 i fuel = none := by
  intro fuel
  induction fuel with
  | zero => intro i; rfl
  | succ fuel ih =>
    intro i
    have hmem : cands i ∈ full_board_2x2 := by
      obtain ⟨h1, h2, h3, h4⟩ := hc i
      have hx : (cands i).1 = 0 ∨ (cands i).1 = 1 := by omega
      have hy : (cands i).2 = 0 ∨ (cands i).2 = 1 := by omega
      rcases hx with hx | hx <;> rcases hy with hy | hy <;>
        simp [full_board_2x2, Prod.ext_iff, hx, hy]
    simp only [generate_food_fuel, if_pos hmem]
    exact ih (i + 1)

/-- C7, witness: a constant in-range candidate stream makes no progress
against the full 2×2 snake in five loop iterations. -/
theorem generate_food_full_board_loops_witness :
    (∀ j : ℕ, 0 ≤ ((fun _ => ((0 : ℤ), (0 : ℤ))) j).1 ∧
      ((fun _ => ((0 : ℤ), (0 : ℤ))) j).1 < 2 ∧
      0 ≤ ((fun _ => ((0 : ℤ), (0 : ℤ))) j).2 ∧
      ((fun _ => ((0 : ℤ), (0 : ℤ))) j).2 < 2) ∧
    generate_food_fuel (fun _ => ((0 : ℤ), (0 : ℤ))) full_board_2x2 0 5 = none :=
  ⟨fun j => by
      show (0 : ℤ) ≤ 0 ∧ (0 : ℤ) < 2 ∧ (0 : ℤ) ≤ 0 ∧ (0 : ℤ) < 2
      decide,
   generate_food_full_board_loops (fun _ => ((0 : ℤ), (0 : ℤ)))
     (fun j => by
        show (0 : ℤ) ≤ 0 ∧ (0 : ℤ) < 2 ∧ (0 : ℤ) ≤ 0 ∧ (0 : ℤ) < 2
        decide) 5 0⟩

/-- C8: a direction button press stores the requested direction exactly
when the game is PLAYING and the request is not the exact opposite of
the current travel direction; in every other case the stored direction
is unchanged. -/
theorem press_direction_spec (g : SnakeGame) (d : Direction) :
    (g.game_state = GameState.PLAYING ∧ d ≠ opposite g.direction →
      (press_direction g d).direction = d) ∧
    (¬ (g.game_state = GameState.PLAYING ∧ d ≠ opposite g.direction) →
      (press_direction g d).direction = g.direction) := by
  constructor
  · rintro ⟨hp, hd⟩
    simp [press_direction, SnakeGame.change_direction, hp, hd]
  · intro hno
    by_cases hp : g.game_state = GameState.PLAYING
    · have hd : d = opposite g.direction := by
        by_contra hd
        exact hno ⟨hp, hd⟩
      simp [press_direction, SnakeGame.change_direction, hp, hd]
    · simp [press_direction, hp]

/-- C8, witness: pressing UP on a fresh game travelling RIGHT stores
UP. -/
theorem press_direction_spec_witness :
    (demoGame.game_state = GameState.PLAYING ∧
      Direction.UP ≠ opposite demoGame.direction) ∧
    (press_direction demoGame Direction.UP).direction = Direction.UP :=
  ⟨by with_unfolding_all decide,
   (press_direction_spec demoGame Direction.UP).1 (by with_unfolding_all decide)⟩

/-- C9, amended: neither pausing nor resuming touches `start_time`, and
`get_game_time` is wall-clock now minus `start_time`, so intervals
spent paused are included in the reported elapsed time — at any
wall-clock instant the reading is the same as if the game had never
been paused. -/
theorem game_time_includes_paused (g : SnakeGame) (now : ℚ) :
    (resume_button (pause_button g)).start_time = g.start_time ∧
    SnakeGame.get_game_time (resume_button (pause_button g)) now =
      SnakeGame.get_game_time g now := by
  have h1 : (resume_button (pause_button g)).start_time = g.start_time := by
    by_cases hp : g.game_state = GameState.PLAYING
    · simp [pause_button, resume_button, hp]
    · by_cases hq : g.game_state = GameState.PAUSED <;>
        simp [pause_button, resume_button, hp, hq]
  exact ⟨h1, by simp [SnakeGame.get_game_time, h1]⟩

/-- C9, counterexample to the claim as stated.  A game started at
wall-clock 0 is paused, later resumed, and its clock read at wall-clock
instant 10 after having spent 3 units paused: the code reports the full
10 wall-clock units, not the 7 units of unpaused play that a
pause-excluding statistic would report. -/
theorem game_time_includes_paused_cex :
    SnakeGame.get_game_time (resume_button (pause_button demoGame)) 10 = 10 ∧
    (10 : ℚ) ≠ 10 - 3 := by
  with_unfolding_all decide

end Snake
